import Mathlib

/-!
Shallow embedding of the AI-inference platform (api-gateway, orchestrator,
inference worker, model manager) and proofs about it.

JavaScript Maps are modelled as association lists (`List (String × β)`) with
JS `Map.set` semantics (`setKV` replaces in place or appends), JS Sets as
`List String` with append-on-add (`addS`) and delete-all (`delS`).  JS numbers
that the code only adds/subtracts/compares are modelled as `Int` (they can go
negative); averaged or divided quantities as `ℚ`.  Thrown errors are modelled
with `Except`, the error being the `Error` message string or a dedicated
error type where the worker distinguishes its own failure kinds.
-/

namespace S2P

/-- Lookup in an association list, modelling `Map.get` (first entry wins). -/
def lookupKV {β : Type} : List (String × β) → String → Option β
  | [], _ => none
  | (k2, v) :: rest, k => if k2 = k then some v else lookupKV rest k

/-- JS `Map.set`: replace the value in place if the key exists, else append. -/
def setKV {β : Type} : List (String × β) → String → β → List (String × β)
  | [], k, v => [(k, v)]
  | (k2, v2) :: rest, k, v =>
      if k2 = k then (k, v) :: rest else (k2, v2) :: setKV rest k v

/-- JS `Map.delete`: drop every entry with the given key. -/
def eraseKV {β : Type} (l : List (String × β)) (k : String) : List (String × β) :=
  l.filter (fun p => p.1 ≠ k)

/-- JS `Set.add`: append the element if it is not already present. -/
def addS (l : List String) (x : String) : List String :=
  if x ∈ l then l else l ++ [x]

/-- JS `Set.delete`: remove the element. -/
def delS (l : List String) (x : String) : List String :=
  l.filter (fun y => y ≠ x)

/-! ## Inference worker (src/wrk-ai-inference/workers/ai.inference.wrk.js)

The worker state is `this.capacity` (`maxConcurrent`, `currentLoad`,
`availableModels`) together with `this.modelCache`.  The model objects
returned by `this.modelManager.loadModel` are opaque (type parameter `μ`),
the engine result is opaque (`ρ`), and errors thrown by the model manager or
the inference engine are opaque (`ε`).  The outcomes of those two external
calls are passed in as explicit arguments (`mmLoad`, `engine`). -/

namespace Infer

structure WState (μ : Type) where
  maxConcurrent : Int
  currentLoad : Int
  availableModels : List String
  modelCache : List (String × μ)
deriving DecidableEq

/-- Errors surfaced by `runInference`: the two gate errors the worker itself
throws (`ERR_CAPACITY_EXCEEDED`, `ERR_MODEL_NOT_AVAILABLE`) and anything
propagated from the model manager or inference engine. -/
inductive WErr (ε : Type) where
  | capacityExceeded
  | modelNotAvailable
  | engine (e : ε)
deriving DecidableEq

/-- Fresh worker state: `maxConcurrent` from configuration, `currentLoad: 0`,
`availableModels: new Set()`, `modelCache: new Map()`. -/
def initState (μ : Type) (maxConcurrent : Int) : WState μ :=
  ⟨maxConcurrent, 0, [], []⟩

/-- Body of the `try` block of `runInference` in ai.inference.wrk.js:
capacity check, model-availability check, increment, cache lookup (loading
and caching on a miss), inference, and the decrement on the success path
(line `this.capacity.currentLoad--` before the return). -/
def runInferenceTry {ε μ ρ : Type} (mmLoad : Except ε μ) (engine : μ → Except ε ρ)
    (modelId : String) (s : WState μ) : Except (WErr ε) ρ × WState μ :=
  if s.maxConcurrent ≤ s.currentLoad then
    (.error .capacityExceeded, s)
  else if !(s.availableModels.contains modelId) then
    (.error .modelNotAvailable, s)
  else
    let s1 : WState μ := { s with currentLoad := s.currentLoad + 1 }
    match lookupKV s1.modelCache modelId with
    | some m =>
        match engine m with
        | .ok r => (.ok r, { s1 with currentLoad := s1.currentLoad - 1 })
        | .error e => (.error (.engine e), s1)
    | none =>
        match mmLoad with
        | .ok m =>
            let s2 : WState μ := { s1 with modelCache := setKV s1.modelCache modelId m }
            match engine m with
            | .ok r => (.ok r, { s2 with currentLoad := s2.currentLoad - 1 })
            | .error e => (.error (.engine e), s2)
        | .error e => (.error (.engine e), s1)

/-- The whole of `runInference` in ai.inference.wrk.js: the `catch` block
executes `this.capacity.currentLoad--` and rethrows, on every failure —
including failures of the capacity and model-availability checks, which
happen before the increment. -/
def runInference {ε μ ρ : Type} (mmLoad : Except ε μ) (engine : μ → Except ε ρ)
    (modelId : String) (s : WState μ) : Except (WErr ε) ρ × WState μ :=
  match runInferenceTry mmLoad engine modelId s with
  | (.ok r, s2) => (.ok r, s2)
  | (.error e, s2) => (.error e, { s2 with currentLoad := s2.currentLoad - 1 })

/-- The `runInference` of the HTTP service variant (src/unnamed/part_003,
`AIInferenceService.runInference`): both checks are performed before the
increment and outside the `try`; the decrement sits in a `finally` that only
wraps the guarded body. -/
def runInferenceSvc {ε μ ρ : Type} (mmLoad : Except ε μ) (engine : μ → Except ε ρ)
    (modelId : String) (s : WState μ) : Except (WErr ε) ρ × WState μ :=
  if s.maxConcurrent ≤ s.currentLoad then
    (.error .capacityExceeded, s)
  else if !(s.availableModels.contains modelId) then
    (.error .modelNotAvailable, s)
  else
    let s1 : WState μ := { s with currentLoad := s.currentLoad + 1 }
    let body : Except (WErr ε) ρ × WState μ :=
      match lookupKV s1.modelCache modelId with
      | some m =>
          match engine m with
          | .ok r => (.ok r, s1)
          | .error e => (.error (.engine e), s1)
      | none =>
          match mmLoad with
          | .ok m =>
              let s2 : WState μ := { s1 with modelCache := setKV s1.modelCache modelId m }
              match engine m with
              | .ok r => (.ok r, s2)
              | .error e => (.error (.engine e), s2)
          | .error e => (.error (.engine e), s1)
    (body.1, { body.2 with currentLoad := body.2.currentLoad - 1 })

/-- The `loadModel` RPC endpoint: idempotent on a cache hit; on a miss it
fetches from the model manager, caches the model, and adds the id to
`availableModels`; a fetch failure is rethrown with no state change. -/
def loadModel {ε μ : Type} (mmLoad : Except ε μ) (modelId : String) (s : WState μ) :
    Except ε Bool × WState μ :=
  if (lookupKV s.modelCache modelId).isSome then
    (.ok true, s)
  else
    match mmLoad with
    | .ok m =>
        (.ok true, { s with modelCache := setKV s.modelCache modelId m,
                            availableModels := addS s.availableModels modelId })
    | .error e => (.error e, s)

/-- The `unloadModel` RPC endpoint: removes the model from the cache and from
`availableModels` when cached, otherwise reports success with no change. -/
def unloadModel {ε μ : Type} (modelId : String) (s : WState μ) :
    Except ε Bool × WState μ :=
  if (lookupKV s.modelCache modelId).isSome then
    (.ok true, { s with modelCache := eraseKV s.modelCache modelId,
                        availableModels := delS s.availableModels modelId })
  else
    (.ok true, s)

/-- The capacity report built by `checkCapacity` (the fields a caller can
observe; `memoryUsage`/`uptime` are process introspection and omitted). -/
structure Capacity where
  maxConcurrent : Int
  currentLoad : Int
  available : Bool
  availableModels : List String
  modelAvailable : Bool
  modelLoaded : Bool
deriving DecidableEq

/-- The `checkCapacity` RPC endpoint, with a `modelId` supplied so that the
`modelAvailable`/`modelLoaded` fields are populated. -/
def checkCapacity {μ : Type} (modelId : String) (s : WState μ) : Capacity :=
  { maxConcurrent := s.maxConcurrent
    currentLoad := s.currentLoad
    available := decide (s.currentLoad < s.maxConcurrent)
    availableModels := s.availableModels
    modelAvailable := s.availableModels.contains modelId
    modelLoaded := (lookupKV s.modelCache modelId).isSome }

/-- One RPC call to the worker, carrying the outcomes of the external calls
it may make (model-manager load result, inference-engine result). -/
inductive WOp (ε μ ρ : Type) where
  | load (modelId : String) (mmLoad : Except ε μ)
  | unload (modelId : String)
  | run (modelId : String) (mmLoad : Except ε μ) (engine : μ → Except ε ρ)

/-- State left behind by one call (results are returned to the remote caller
and do not feed back into worker state). -/
def step {ε μ ρ : Type} (op : WOp ε μ ρ) (s : WState μ) : WState μ :=
  match op with
  | .load m r => (loadModel r m s).2
  | .unload m => (unloadModel (ε := ε) m s).2
  | .run m r f => (runInference r f m s).2

/-- Worker state after a sequence of calls. -/
def execOps {ε μ ρ : Type} (ops : List (WOp ε μ ρ)) (s : WState μ) : WState μ :=
  ops.foldl (fun s op => step op s) s

/-- The implicit invariant relating the preloaded-model set to the model
cache: a model id is in `availableModels` exactly when it is a key of
`modelCache`. -/
def modelsMatchCache {μ : Type} (s : WState μ) : Prop :=
  ∀ k : String, s.availableModels.contains k = (lookupKV s.modelCache k).isSome

end Infer

/-! ## Service registry (src/wrk-orchestrator/workers/lib/service-registry.js)

`workerInfo.capabilities` is either a JS array of capability tags (indexed
into `capabilityIndex` under the `Array.isArray` guard) or an object with a
`models` array (indexed into `modelIndex` under the `capabilities.models`
guard).  Both guards are independent, so capabilities are modelled as a pair
of lists: `tags` (the array elements, empty when capabilities is not an
array) and `models` (the `models` field, empty when absent). -/

namespace Registry

structure Caps where
  tags : List String
  models : List String
deriving DecidableEq

structure WorkerInfo where
  id : String
  address : String
  capabilities : Caps
  status : String
  registeredAt : Int
  lastSeen : Int
deriving DecidableEq

structure RegState where
  workers : List (String × WorkerInfo)
  capabilityIndex : List (String × List String)
  modelIndex : List (String × List String)
deriving DecidableEq

def regInit : RegState := ⟨[], [], []⟩

/-- Index insertion: `if (!idx.has(key)) idx.set(key, new Set()); idx.get(key).add(id)`. -/
def indexAdd (idx : List (String × List String)) (key id : String) :
    List (String × List String) :=
  match lookupKV idx key with
  | some ids => setKV idx key (addS ids id)
  | none => setKV idx key (addS [] id)

/-- Index removal as in `unregisterWorker`: delete the id from the set and
drop the key entirely when the set becomes empty. -/
def indexRemove (idx : List (String × List String)) (key id : String) :
    List (String × List String) :=
  match lookupKV idx key with
  | some ids =>
      let ids2 := delS ids id
      if ids2.isEmpty then eraseKV idx key else setKV idx key ids2
  | none => idx

/-- `ServiceRegistry.registerWorker`: store the info under its id and add the
id to the capability index for each tag and to the model index for each
model.  A re-registration overwrites the `workers` entry but removes nothing
from the indices. -/
def registerWorker (info : WorkerInfo) (s : RegState) : RegState :=
  { workers := setKV s.workers info.id info
    capabilityIndex :=
      info.capabilities.tags.foldl (fun ci c => indexAdd ci c info.id) s.capabilityIndex
    modelIndex :=
      info.capabilities.models.foldl (fun mi m => indexAdd mi m info.id) s.modelIndex }

/-- `ServiceRegistry.unregisterWorker`: no-op for an unknown id; otherwise
remove the id from the index entries named by the worker's *current*
capabilities, then delete the main entry. -/
def unregisterWorker (workerId : String) (s : RegState) : RegState :=
  match lookupKV s.workers workerId with
  | none => s
  | some w =>
      { workers := eraseKV s.workers workerId
        capabilityIndex :=
          w.capabilities.tags.foldl (fun ci c => indexRemove ci c workerId) s.capabilityIndex
        modelIndex :=
          w.capabilities.models.foldl (fun mi m => indexRemove mi m workerId) s.modelIndex }

/-- `ServiceRegistry.getWorkersForModel`: resolve the model-index ids against
the main map and keep only workers whose status is `active`. -/
def getWorkersForModel (modelId : String) (s : RegState) : List WorkerInfo :=
  ((lookupKV s.modelIndex modelId).getD []).filterMap (fun id =>
    match lookupKV s.workers id with
    | some w => if w.status = "active" then some w else none
    | none => none)

/-- One registry mutation. -/
inductive RegOp where
  | register (info : WorkerInfo)
  | unregister (id : String)
deriving DecidableEq

def regStep (s : RegState) (op : RegOp) : RegState :=
  match op with
  | .register i => registerWorker i s
  | .unregister id2 => unregisterWorker id2 s

def regExec (ops : List RegOp) (s : RegState) : RegState :=
  ops.foldl regStep s

/-- Decidable statement that no index entry dangles: every id stored in the
capability index or the model index is a key of the main `workers` map. -/
def noDangling (s : RegState) : Bool :=
  s.capabilityIndex.all (fun e => e.2.all (fun id => (lookupKV s.workers id).isSome))
    && s.modelIndex.all (fun e => e.2.all (fun id => (lookupKV s.workers id).isSome))

/-- Decidable statement that every registration in a call sequence carries
the capability/model sets given by a fixed per-id assignment, i.e. no worker
id is ever re-registered with a different capability or model set. -/
def opsConsistent (capsOf : String → Caps) (ops : List RegOp) : Bool :=
  ops.all (fun op =>
    match op with
    | .register i => decide (i.capabilities = capsOf i.id)
    | .unregister _ => true)

/-- Membership of an id in an index under a key, through `Map.get`. -/
def memIndex (idx : List (String × List String)) (key id : String) : Prop :=
  ∃ ids, lookupKV idx key = some ids ∧ id ∈ ids

/-- Induction invariant for registries built with a fixed per-id capability
assignment: stored workers carry their assigned capabilities, every index
entry points at a live worker and at one of its assigned tags/models, and
the index key lists are duplicate-free. -/
def regInv (capsOf : String → Caps) (s : RegState) : Prop :=
  (∀ id w, lookupKV s.workers id = some w → w.capabilities = capsOf id)
  ∧ (∀ c id2, memIndex s.capabilityIndex c id2 →
        (lookupKV s.workers id2).isSome = true ∧ c ∈ (capsOf id2).tags)
  ∧ (∀ m id2, memIndex s.modelIndex m id2 →
        (lookupKV s.workers id2).isSome = true ∧ m ∈ (capsOf id2).models)
  ∧ (s.capabilityIndex.map Prod.fst).Nodup
  ∧ (s.modelIndex.map Prod.fst).Nodup

end Registry

/-! ## Health monitor (src/wrk-orchestrator/workers/lib/health-monitor.js,
concatenated after worker.js in the source tree)

`performHealthCheck` mutates only the monitor's own `monitoredWorkers`
record; the service registry is a different object and holds its own
`status` field.  The probe outcome (the simulated RPC succeeding or
failing) is passed as a boolean. -/

namespace Health

structure MonRec where
  id : String
  address : String
  status : String
  lastCheck : Int
  consecutiveFailures : Nat
  totalChecks : Nat
  successfulChecks : Nat
deriving DecidableEq

/-- `HealthMonitor.startMonitoring`: a fresh record with status `healthy`. -/
def startMonitoring (workerId address : String) (now : Int)
    (mon : List (String × MonRec)) : List (String × MonRec) :=
  setKV mon workerId ⟨workerId, address, "healthy", now, 0, 0, 0⟩

/-- `HealthMonitor.performHealthCheck` on one worker with the given probe
outcome: on success, reset `consecutiveFailures`, bump `successfulChecks`,
stamp `lastCheck` (the record's `status` is left untouched); on failure,
bump `consecutiveFailures` and set the record's `status` to `unhealthy` once
it reaches 3.  `totalChecks` is bumped on both paths.  An unmonitored id
makes the call throw with no state change. -/
def performHealthCheck (workerId : String) (probeOk : Bool) (now : Int)
    (mon : List (String × MonRec)) : List (String × MonRec) :=
  match lookupKV mon workerId with
  | none => mon
  | some w =>
      let w1 :=
        if probeOk then
          { w with consecutiveFailures := 0,
                   successfulChecks := w.successfulChecks + 1,
                   lastCheck := now }
        else
          let w2 := { w with consecutiveFailures := w.consecutiveFailures + 1 }
          if 3 ≤ w2.consecutiveFailures then { w2 with status := "unhealthy" } else w2
      setKV mon workerId { w1 with totalChecks := w1.totalChecks + 1 }

/-- Combined orchestrator state: the service registry plus the health
monitor's `monitoredWorkers` map (two separate objects in the source). -/
structure SysState where
  reg : Registry.RegState
  mon : List (String × MonRec)
deriving DecidableEq

/-- `OrchestratorService.registerWorker`: build the worker info with status
`active`, insert it into the service registry, and start monitoring it. -/
def sysRegister (workerId address : String) (caps : Registry.Caps) (now : Int)
    (s : SysState) : SysState :=
  { reg := Registry.registerWorker ⟨workerId, address, caps, "active", now, now⟩ s.reg
    mon := startMonitoring workerId address now s.mon }

/-- One health probe of a worker (a tick of `performHealthChecks` for that
worker), which touches only the monitor. -/
def sysProbe (workerId : String) (probeOk : Bool) (now : Int) (s : SysState) : SysState :=
  { s with mon := performHealthCheck workerId probeOk now s.mon }

end Health

/-! ## Gateway rate limiter (src/wrk-api-gateway/worker.js, `checkRateLimit`
and `startRateLimitCleanup`)

Time (`Date.now()`) is an explicit `Int` argument.  The configuration keeps
the optional raw values; `windowMs || 60000` and `maxRequests || 100` are the
JS truthiness defaults (absent *or zero* falls back). -/

namespace Gateway

structure RLEntry where
  requests : Nat
  windowStart : Int
deriving DecidableEq

structure RateConf where
  enabled : Bool
  windowMsOpt : Option Int
  maxRequestsOpt : Option Nat
deriving DecidableEq

def windowMsOf (c : RateConf) : Int :=
  match c.windowMsOpt with
  | some v => if v = 0 then 60000 else v
  | none => 60000

def maxRequestsOf (c : RateConf) : Nat :=
  match c.maxRequestsOpt with
  | some v => if v = 0 then 100 else v
  | none => 100

/-- `checkRateLimit`: pass-through when disabled; first hit creates
`{requests: 1, windowStart: now}` and allows; an expired window resets and
allows; at or above `maxRequests` deny with no state change; otherwise count
the request and allow. -/
def checkRateLimit (conf : RateConf) (clientId : String) (now : Int)
    (st : List (String × RLEntry)) : Bool × List (String × RLEntry) :=
  if conf.enabled = false then
    (true, st)
  else
    match lookupKV st clientId with
    | none => (true, setKV st clientId ⟨1, now⟩)
    | some e =>
        if windowMsOf conf < now - e.windowStart then
          (true, setKV st clientId ⟨1, now⟩)
        else if maxRequestsOf conf ≤ e.requests then
          (false, st)
        else
          (true, setKV st clientId ⟨e.requests + 1, e.windowStart⟩)

/-- One tick of the cleanup loop in `startRateLimitCleanup`: prune entries
with `now - windowStart > windowMs * 2`. -/
def rateLimitCleanup (conf : RateConf) (now : Int)
    (st : List (String × RLEntry)) : List (String × RLEntry) :=
  st.filter (fun p => ¬ (2 * windowMsOf conf < now - p.2.windowStart))

/-- An event observed by the rate limiter: an incoming request from some
client, or a cleanup tick. -/
inductive GwEvent where
  | request (clientId : String) (now : Int)
  | cleanup (now : Int)
deriving DecidableEq

def eventTime : GwEvent → Int
  | .request _ t => t
  | .cleanup t => t

def gwStep (conf : RateConf) (st : List (String × RLEntry)) (ev : GwEvent) :
    List (String × RLEntry) :=
  match ev with
  | .request c t => (checkRateLimit conf c t st).2
  | .cleanup t => rateLimitCleanup conf t st

def gwExec (conf : RateConf) (evs : List GwEvent) (st : List (String × RLEntry)) :
    List (String × RLEntry) :=
  evs.foldl (gwStep conf) st

end Gateway

/-! ## Model storage (src/wrk-model-manager/workers/lib/model-storage.js,
concatenated in src/wrk-model-manager/worker.js)

The filesystem is a map from paths to byte lists; `storeModel` additionally
reports the list of filesystem operations it performed, so that the shape of
the write (direct vs write-to-temp-then-rename) is observable.  The sha256
hex digest from the `crypto` module is an external function, passed in both
at string input (`generateStorageKey`) and byte input (`calculateChecksum`). -/

namespace Storage

def pathJoin (a b : String) : String := a ++ "/" ++ b

inductive FsOp where
  | write (path : String) (data : List Nat)
  | rename (src dst : String)
deriving DecidableEq

structure StoreResult where
  key : String
  path : String
  checksum : String
  size : Nat
deriving DecidableEq

structure StorageConf where
  storagePath : String
  maxModelSize : ℚ

/-- `generateStorageKey`: sha256 hex of the model id plus the `.model` suffix. -/
def generateStorageKey (shaStr : String → String) (modelId : String) : String :=
  shaStr modelId ++ ".model"

/-- `calculateChecksum`: sha256 hex of the data. -/
def calculateChecksum (shaBytes : List Nat → String) (data : List Nat) : String :=
  shaBytes data

/-- `ModelStorage.storeModel`: reject data above `maxModelSize`, otherwise
compute the key and checksum and write the bytes to
`storagePath/storageKey` with a single direct `fs.writeFile`. -/
def storeModel (shaStr : String → String) (shaBytes : List Nat → String)
    (conf : StorageConf) (modelId : String) (modelData : List Nat)
    (fs : List (String × List Nat)) :
    Except String StoreResult × List (String × List Nat) × List FsOp :=
  if conf.maxModelSize < (modelData.length : ℚ) then
    (.error "ERR_MODEL_TOO_LARGE", fs, [])
  else
    let key := generateStorageKey shaStr modelId
    let filePath := pathJoin conf.storagePath key
    let checksum := calculateChecksum shaBytes modelData
    (.ok ⟨key, filePath, checksum, modelData.length⟩,
     setKV fs filePath modelData,
     [.write filePath modelData])

/-- `ModelStorage.getModel`: read the blob at `storagePath/storageKey`;
a missing file is a thrown read error. -/
def getModel (conf : StorageConf) (storageKey : String)
    (fs : List (String × List Nat)) : Except String (List Nat) :=
  match lookupKV fs (pathJoin conf.storagePath storageKey) with
  | some d => .ok d
  | none => .error "ERR_FILE_NOT_FOUND"

/-- Core of `WrkModelManager.validateModel`: fetch the stored bytes,
recompute the sha256 checksum and compare with the expected one. -/
def validateChecksum (shaBytes : List Nat → String) (conf : StorageConf)
    (storageKey expected : String) (fs : List (String × List Nat)) :
    Except String Bool :=
  match getModel conf storageKey fs with
  | .ok d => .ok (decide (calculateChecksum shaBytes d = expected))
  | .error e => .error e

/-- The write discipline asserted by the specification: first a write of the
data to a temporary path, then a rename of that path onto the final one. -/
def writesViaTempRename (trace : List FsOp) (finalPath : String)
    (data : List Nat) : Bool :=
  match trace with
  | [FsOp.write p d, FsOp.rename src dst] =>
      decide (p = src) && decide (dst = finalPath) && decide (d = data)
  | _ => false

end Storage

/-! ## Load balancer (src/wrk-orchestrator/workers/lib/load-balancer.js,
`selectWeighted`)

`Math.random() * totalWeight` is passed in as the draw `r`.  The balancer
reads only `worker.id` from the candidate objects, captured by `idOf`. -/

namespace Balancer

structure WStats where
  requestCount : Nat
  totalProcessingTime : ℚ
  averageProcessingTime : ℚ
  successCount : Nat
  failureCount : Nat
  lastRequestTime : Option Int
  currentLoad : Int
deriving DecidableEq

/-- Weight computed by `selectWeighted` for one candidate:
`successRate * (1000 / avgTime)` with `successRate = successCount /
requestCount` (1 when there are no requests) and `avgTime =
averageProcessingTime || 1000` (the JS truthiness default: an average of 0
falls back to 1000).  A candidate with no stats entry gets weight 1. -/
def weightOf (st : Option WStats) : ℚ :=
  match st with
  | none => 1
  | some s =>
      let successRate : ℚ :=
        if 0 < s.requestCount then (s.successCount : ℚ) / (s.requestCount : ℚ) else 1
      let avgTime : ℚ := if s.averageProcessingTime = 0 then 1000 else s.averageProcessingTime
      successRate * (1000 / avgTime)

/-- Weight formula asserted by the specification (for refinement comparison
with `weightOf`): `successRate * (1000 / max(avg_ms, 1))`, candidates with
unknown stats getting weight 1. -/
def specWeightOf (st : Option WStats) : ℚ :=
  match st with
  | none => 1
  | some s =>
      let successRate : ℚ :=
        if 0 < s.requestCount then (s.successCount : ℚ) / (s.requestCount : ℚ) else 1
      successRate * (1000 / max s.averageProcessingTime 1)

/-- The selection loop: subtract each weight from the draw and return the
first candidate that takes it to zero or below. -/
def selectWeightedGo {α : Type} : ℚ → List (α × ℚ) → Option α
  | _, [] => none
  | r, (w, wt) :: rest => if r - wt ≤ 0 then some w else selectWeightedGo (r - wt) rest

/-- The weighted candidate list built by `selectWeighted`. -/
def weightedList {α : Type} (sts : List (String × WStats)) (idOf : α → String)
    (ws : List α) : List (α × ℚ) :=
  ws.map (fun w => (w, weightOf (lookupKV sts (idOf w))))

/-- `LoadBalancer.selectWeighted` with the random draw `r` made explicit:
run the subtraction loop, falling back to `workers[0]` when the loop ends. -/
def selectWeighted {α : Type} (sts : List (String × WStats)) (idOf : α → String)
    (ws : List α) (r : ℚ) : Option α :=
  match selectWeightedGo r (weightedList sts idOf ws) with
  | some w => some w
  | none => ws.head?

/-- The same selection loop driven by the specification's weights (for
refinement comparison with `selectWeighted`). -/
def specSelectWeighted {α : Type} (sts : List (String × WStats)) (idOf : α → String)
    (ws : List α) (r : ℚ) : Option α :=
  match selectWeightedGo r (ws.map (fun w => (w, specWeightOf (lookupKV sts (idOf w))))) with
  | some w => some w
  | none => ws.head?

/-- Sum of the first `i` weights of a weighted candidate list. -/
def cumWeight {α : Type} (l : List (α × ℚ)) (i : Nat) : ℚ :=
  ((l.take i).map Prod.snd).sum

end Balancer

/-! ## Inference engine postprocessing
(src/wrk-ai-inference/workers/lib/inference-engine.js, `postprocessResult`)

Raw results are JS values; `result.predictions || result` and
`result.confidence || 0.5` use JS truthiness (`||`), so a present-but-falsy
field falls through to the default. -/

namespace Post

inductive JVal where
  | nullv
  | bool (b : Bool)
  | num (q : ℚ)
  | str (s : String)
  | arr (xs : List JVal)
  | obj (fields : List (String × JVal))

/-- JS truthiness of a value. -/
def truthy : JVal → Bool
  | .nullv => false
  | .bool b => b
  | .num q => decide (q ≠ 0)
  | .str s => decide (s ≠ "")
  | .arr _ => true
  | .obj _ => true

/-- Property access `v.k`: a field lookup on objects, `undefined` (here
`none`) on anything else. -/
def getField : JVal → String → Option JVal
  | .obj fields, k => lookupKV fields k
  | _, _ => none

/-- JS `a || b` where `a` is a possibly-absent value: the value itself when
present and truthy, otherwise the fallback. -/
def jsOr (v : Option JVal) (fallback : JVal) : JVal :=
  match v with
  | some x => if truthy x then x else fallback
  | none => fallback

structure MInfo where
  version : String

/-- `InferenceEngine.postprocessResult`: normalize a raw result to
`{predictions, confidence, metadata: {modelVersion, processedAt}}` with
`predictions: result.predictions || result` and
`confidence: result.confidence || 0.5`. -/
def postprocessResult (model : MInfo) (now : Int) (result : JVal) : JVal :=
  .obj [("predictions", jsOr (getField result "predictions") result),
        ("confidence", jsOr (getField result "confidence") (.num (1/2))),
        ("metadata", .obj [("modelVersion", .str model.version),
                           ("processedAt", .num now)])]

end Post

/-! ## Lemmas about the map and set models -/

theorem lookupKV_setKV {β : Type} (l : List (String × β)) (k j : String) (v : β) :
    lookupKV (setKV l k v) j = if k = j then some v else lookupKV l j := by
  induction l with
  | nil => simp [setKV, lookupKV]
  | cons p rest ih =>
      obtain ⟨k2, v2⟩ := p
      by_cases h : k2 = k
      · subst h
        simp only [setKV, if_pos rfl, lookupKV]
        by_cases hj : k2 = j
        · subst hj; simp
        · simp [hj]
      · simp only [setKV, if_neg h, lookupKV]
        by_cases hj : k2 = j
        · subst hj
          have hk : ¬ k = k2 := fun h2 => h h2.symm
          simp [hk]
        · simp [hj, ih]

theorem lookupKV_eraseKV {β : Type} (l : List (String × β)) (k j : String) :
    lookupKV (eraseKV l k) j = if k = j then none else lookupKV l j := by
  induction l with
  | nil => simp [eraseKV, lookupKV]
  | cons p rest ih =>
      obtain ⟨k2, v2⟩ := p
      by_cases h : k2 = k
      · subst h
        have hstep : eraseKV ((k2, v2) :: rest) k2 = eraseKV rest k2 := by
          simp [eraseKV, List.filter_cons]
        rw [hstep, ih]
        by_cases hj : k2 = j <;> simp [lookupKV, hj]
      · have hstep : eraseKV ((k2, v2) :: rest) k = (k2, v2) :: eraseKV rest k := by
          simp [eraseKV, List.filter_cons, h]
        rw [hstep]
        simp only [lookupKV]
        rw [ih]
        by_cases hj : k2 = j
        · subst hj
          have hk : ¬ k = k2 := fun h2 => h h2.symm
          simp [hk]
        · simp [hj]

theorem contains_addS (l : List String) (x j : String) :
    (addS l x).contains j = (l.contains j || decide (j = x)) := by
  unfold addS
  by_cases hx : x ∈ l
  · rw [if_pos hx]
    by_cases hj : j = x
    · subst hj; simp [hx]
    · simp [hj]
  · rw [if_neg hx]
    simp [List.mem_append]

theorem contains_delS (l : List String) (x j : String) :
    (delS l x).contains j = (l.contains j && !(decide (j = x))) := by
  unfold delS
  by_cases hj : j = x
  · subst hj; simp [List.mem_filter]
  · simp [List.mem_filter, hj]

/-! ## Claims about the inference worker -/

namespace Infer

/-- State evolution of the service-variant body is not needed below; the
lemmas concern the wrk variant.  Case analysis of the model-state effect of
one `runInference` call: the available-model set never changes, and the
cache either stays as it is or gains the requested (available) model. -/
theorem runInference_models_cases {ε μ ρ : Type} (mmLoad : Except ε μ)
    (engine : μ → Except ε ρ) (modelId : String) (s : WState μ) :
    (runInference mmLoad engine modelId s).2.availableModels = s.availableModels ∧
      ((runInference mmLoad engine modelId s).2.modelCache = s.modelCache ∨
        (modelId ∈ s.availableModels ∧
          ∃ m : μ, (runInference mmLoad engine modelId s).2.modelCache
            = setKV s.modelCache modelId m)) := by
  unfold runInference runInferenceTry
  by_cases h1 : s.maxConcurrent ≤ s.currentLoad
  · simp [h1]
  · by_cases h2 : modelId ∈ s.availableModels
    · cases hc : lookupKV s.modelCache modelId with
      | some m =>
          cases he : engine m with
          | ok r => simp [h1, h2, hc, he]
          | error e => simp [h1, h2, hc, he]
      | none =>
          cases hm : mmLoad with
          | ok m =>
              cases he : engine m with
              | ok r =>
                  refine ⟨?_, Or.inr ⟨h2, m, ?_⟩⟩ <;> simp [h1, h2, hc, hm, he]
              | error e =>
                  refine ⟨?_, Or.inr ⟨h2, m, ?_⟩⟩ <;> simp [h1, h2, hc, hm, he]
          | error e => simp [h1, h2, hc, hm]
    · simp [h1, h2]

/-- Effect of `loadModel` on the model state. -/
theorem loadModel_models_cases {ε μ : Type} (mmLoad : Except ε μ) (modelId : String)
    (s : WState μ) :
    ((loadModel mmLoad modelId s).2.availableModels = s.availableModels ∧
       (loadModel mmLoad modelId s).2.modelCache = s.modelCache) ∨
      ((lookupKV s.modelCache modelId).isSome = false ∧
        ∃ m : μ, (loadModel mmLoad modelId s).2.modelCache = setKV s.modelCache modelId m ∧
          (loadModel mmLoad modelId s).2.availableModels = addS s.availableModels modelId) := by
  unfold loadModel
  by_cases h1 : (lookupKV s.modelCache modelId).isSome
  · simp [h1]
  · cases hm : mmLoad with
    | ok m =>
        refine Or.inr ⟨by simpa using h1, m, ?_⟩
        simp [h1, hm]
    | error e => simp [h1, hm]

/-- Effect of `unloadModel` on the model state. -/
theorem unloadModel_models_cases {ε μ : Type} (modelId : String) (s : WState μ) :
    ((unloadModel (ε := ε) modelId s).2.availableModels = s.availableModels ∧
       (unloadModel (ε := ε) modelId s).2.modelCache = s.modelCache) ∨
      ((unloadModel (ε := ε) modelId s).2.modelCache = eraseKV s.modelCache modelId ∧
        (unloadModel (ε := ε) modelId s).2.availableModels = delS s.availableModels modelId) := by
  unfold unloadModel
  by_cases h1 : (lookupKV s.modelCache modelId).isSome
  · simp [h1]
  · simp [h1]

/-- The invariant `availableModels = keys of modelCache` is preserved by
every single worker call. -/
theorem modelsMatchCache_step {ε μ ρ : Type} (op : WOp ε μ ρ) (s : WState μ)
    (h : modelsMatchCache s) : modelsMatchCache (step op s) := by
  cases op with
  | load modelId mmLoad =>
      rcases loadModel_models_cases mmLoad modelId s with ⟨ha, hc⟩ | ⟨hmiss, m, hc, ha⟩
      · intro k; rw [step, ha, hc]; exact h k
      · intro k
        rw [step, ha, hc, contains_addS, lookupKV_setKV]
        by_cases hk : modelId = k
        · subst hk; simp
        · have hk2 : ¬ k = modelId := fun h2 => hk h2.symm
          simp only [hk, hk2, decide_eq_true_eq, if_false]
          simpa using h k
  | unload modelId =>
      rcases unloadModel_models_cases (ε := ε) modelId s with ⟨ha, hc⟩ | ⟨hc, ha⟩
      · intro k; rw [step, ha, hc]; exact h k
      · intro k
        rw [step, ha, hc, contains_delS, lookupKV_eraseKV]
        by_cases hk : modelId = k
        · subst hk; simp
        · have hk2 : ¬ k = modelId := fun h2 => hk h2.symm
          simp only [hk, hk2, decide_eq_true_eq, if_false]
          simpa using h k
  | run modelId mmLoad engine =>
      rcases runInference_models_cases mmLoad engine modelId s with ⟨ha, hc | ⟨hav, m, hc⟩⟩
      · intro k; rw [step, ha, hc]; exact h k
      · intro k
        rw [step, ha, hc, lookupKV_setKV]
        by_cases hk : modelId = k
        · subst hk
          simpa using hav
        · simp only [hk, if_false]
          simpa using h k

/-- The invariant holds after any sequence of calls from the initial state. -/
theorem modelsMatchCache_execOps {ε μ ρ : Type} (ops : List (WOp ε μ ρ)) (mc : Int) :
    modelsMatchCache (execOps ops (initState μ mc)) := by
  suffices hgen : ∀ s, modelsMatchCache s → modelsMatchCache (execOps ops s) by
    refine hgen _ ?_
    intro k; simp [initState, lookupKV, List.contains]
  intro s hs
  induction ops generalizing s with
  | nil => simpa [execOps] using hs
  | cons op rest ih =>
      have h1 : modelsMatchCache (step op s) := modelsMatchCache_step op s hs
      simpa [execOps] using ih (step op s) h1

/-- C10: starting from the empty initial state, after any sequence of
`loadModel`, `unloadModel` and `runInference` calls the preloaded-model set
equals the key set of the model cache, so the `modelAvailable` and
`modelLoaded` flags reported by `checkCapacity` agree for every model id. -/
theorem checkCapacity_flags_agree {ε μ ρ : Type} (ops : List (WOp ε μ ρ)) (mc : Int)
    (modelId : String) :
    (checkCapacity modelId (execOps ops (initState μ mc))).modelAvailable
      = (checkCapacity modelId (execOps ops (initState μ mc))).modelLoaded :=
  modelsMatchCache_execOps ops mc modelId

/-- C1: a single failing `runInference` call drives `currentLoad` to −1.
From the fresh state (`maxConcurrent = 10`, `currentLoad = 0`, no preloaded
models), a request for the not-preloaded model `m1` throws
`ERR_MODEL_NOT_AVAILABLE` before the load counter was ever incremented, and
the `catch` block still decrements it, leaving `currentLoad = -1 < 0`: the
invariant `0 ≤ currentLoad ≤ maxConcurrent` is violated by the code. -/
theorem runInference_load_goes_negative :
    (runInference (ε := Unit) (μ := Unit) (ρ := Unit)
        (.error ()) (fun _ => .error ()) "m1" (initState Unit 10)).1
        = .error .modelNotAvailable
    ∧ (execOps (ε := Unit) (μ := Unit) (ρ := Unit)
        [WOp.run "m1" (.error ()) (fun _ => .error ())]
        (initState Unit 10)).currentLoad = -1
    ∧ ¬ (0 ≤ (execOps (ε := Unit) (μ := Unit) (ρ := Unit)
        [WOp.run "m1" (.error ()) (fun _ => .error ())]
        (initState Unit 10)).currentLoad) := by
  refine ⟨rfl, rfl, ?_⟩
  intro h
  simp only [execOps, List.foldl, step, runInference, runInferenceTry] at h
  revert h
  decide

/-- For comparison, the service variant (part_003) with its `finally`-scoped
decrement leaves `currentLoad` unchanged on the same failing call. -/
theorem runInferenceSvc_load_stays_zero :
    (runInferenceSvc (ε := Unit) (μ := Unit) (ρ := Unit)
        (.error ()) (fun _ => .error ()) "m1" (initState Unit 10)).2.currentLoad = 0 := rfl

/-- C5: `runInference` throws `ERR_CAPACITY_EXCEEDED` exactly when
`currentLoad ≥ maxConcurrent` at entry, and throws
`ERR_MODEL_NOT_AVAILABLE` exactly when the capacity check passes but the
model id is not in the preloaded set; the capacity check comes first (both
conditions holding yields the capacity error) and the call returns
immediately rather than queueing. -/
theorem runInference_gate_errors {ε μ ρ : Type} (mmLoad : Except ε μ)
    (engine : μ → Except ε ρ) (modelId : String) (s : WState μ) :
    ((runInference mmLoad engine modelId s).1 = .error .capacityExceeded
        ↔ s.maxConcurrent ≤ s.currentLoad)
    ∧ ((runInference mmLoad engine modelId s).1 = .error .modelNotAvailable
        ↔ (s.currentLoad < s.maxConcurrent ∧ ¬ modelId ∈ s.availableModels)) := by
  unfold runInference runInferenceTry
  by_cases h1 : s.maxConcurrent ≤ s.currentLoad
  · simp [h1]
  · have h1b : s.currentLoad < s.maxConcurrent := lt_of_not_le h1
    by_cases h2 : modelId ∈ s.availableModels
    · cases hc : lookupKV s.modelCache modelId with
      | some m =>
          cases he : engine m with
          | ok r => simp [h1, h1b, h2, hc, he]
          | error e => simp [h1, h1b, h2, hc, he]
      | none =>
          cases hm : mmLoad with
          | ok m =>
              cases he : engine m with
              | ok r => simp [h1, h1b, h2, hc, hm, he]
              | error e => simp [h1, h1b, h2, hc, hm, he]
          | error e => simp [h1, h1b, h2, hc, hm]
    · simp [h1, h1b, h2]

end Infer

/-! ## Claims about the service registry -/

namespace Registry

theorem mem_addS (l : List String) (x y : String) : y ∈ addS l x ↔ y ∈ l ∨ y = x := by
  unfold addS
  by_cases hx : x ∈ l
  · rw [if_pos hx]
    constructor
    · exact Or.inl
    · rintro (h | rfl)
      · exact h
      · exact hx
  · rw [if_neg hx]
    simp [List.mem_append]

theorem mem_delS (l : List String) (x y : String) : y ∈ delS l x ↔ y ∈ l ∧ y ≠ x := by
  simp [delS, List.mem_filter]

theorem delS_eq_nil_forall (l : List String) (x : String) (h : delS l x = []) :
    ∀ y ∈ l, y = x := by
  intro y hy
  by_contra hne
  have hmem : y ∈ delS l x := (mem_delS l x y).mpr ⟨hy, hne⟩
  rw [h] at hmem
  exact absurd hmem (List.not_mem_nil y)

theorem mem_keys_setKV {β : Type} (l : List (String × β)) (k a : String) (v : β) :
    a ∈ (setKV l k v).map Prod.fst ↔ a ∈ l.map Prod.fst ∨ a = k := by
  induction l with
  | nil => simp [setKV]
  | cons p rest ih =>
      obtain ⟨k2, v2⟩ := p
      by_cases h : k2 = k
      · subst h
        have hstep : setKV ((k2, v2) :: rest) k2 v = (k2, v) :: rest := by
          simp [setKV]
        rw [hstep]
        simp only [List.map_cons, List.mem_cons]
        tauto
      · have hstep : setKV ((k2, v2) :: rest) k v = (k2, v2) :: setKV rest k v := by
          simp [setKV, h]
        rw [hstep]
        simp only [List.map_cons, List.mem_cons, ih]
        tauto

theorem keysNodup_setKV {β : Type} (l : List (String × β)) (k : String) (v : β)
    (h : (l.map Prod.fst).Nodup) : ((setKV l k v).map Prod.fst).Nodup := by
  induction l with
  | nil => simp [setKV]
  | cons p rest ih =>
      obtain ⟨k2, v2⟩ := p
      simp only [List.map_cons, List.nodup_cons] at h
      by_cases hk : k2 = k
      · subst hk
        have hstep : setKV ((k2, v2) :: rest) k2 v = (k2, v) :: rest := by
          simp [setKV]
        rw [hstep]
        simp only [List.map_cons, List.nodup_cons]
        exact h
      · have hstep : setKV ((k2, v2) :: rest) k v = (k2, v2) :: setKV rest k v := by
          simp [setKV, hk]
        rw [hstep]
        simp only [List.map_cons, List.nodup_cons]
        refine ⟨?_, ih h.2⟩
        intro hmem
        rcases (mem_keys_setKV rest k k2 v).mp hmem with h1 | h1
        · exact h.1 h1
        · exact hk h1

theorem keysNodup_eraseKV {β : Type} (l : List (String × β)) (k : String)
    (h : (l.map Prod.fst).Nodup) : ((eraseKV l k).map Prod.fst).Nodup := by
  have hsub : List.Sublist ((eraseKV l k).map Prod.fst) (l.map Prod.fst) :=
    List.Sublist.map Prod.fst (List.filter_sublist l)
  exact List.Nodup.sublist hsub h

theorem lookupKV_of_mem_nodup {β : Type} (l : List (String × β)) (c : String) (ids : β)
    (hmem : (c, ids) ∈ l) (hnd : (l.map Prod.fst).Nodup) : lookupKV l c = some ids := by
  induction l with
  | nil => cases hmem
  | cons p rest ih =>
      obtain ⟨k2, v2⟩ := p
      simp only [List.map_cons, List.nodup_cons] at hnd
      rcases List.mem_cons.mp hmem with heq | hrest
      · injection heq with h1 h2
        subst h1
        subst h2
        simp [lookupKV]
      · by_cases h : k2 = c
        · subst h
          exact absurd (List.mem_map.mpr ⟨(k2, ids), hrest, rfl⟩) hnd.1
        · simpa [lookupKV, h] using ih hrest hnd.2

theorem memIndex_indexAdd (idx : List (String × List String)) (key id c id2 : String) :
    memIndex (indexAdd idx key id) c id2 ↔ memIndex idx c id2 ∨ (id2 = id ∧ c = key) := by
  cases hl : lookupKV idx key with
  | some ids =>
      have hstep : indexAdd idx key id = setKV idx key (addS ids id) := by
        unfold indexAdd
        rw [hl]
      rw [hstep]
      simp only [memIndex]
      constructor
      · rintro ⟨ids2, hids2, hmem⟩
        rw [lookupKV_setKV] at hids2
        by_cases hc : key = c
        · rw [if_pos hc] at hids2
          have hid : addS ids id = ids2 := Option.some.inj hids2
          subst hid
          rcases (mem_addS ids id id2).mp hmem with h1 | h1
          · exact Or.inl ⟨ids, hc ▸ hl, h1⟩
          · exact Or.inr ⟨h1, hc.symm⟩
        · rw [if_neg hc] at hids2
          exact Or.inl ⟨ids2, hids2, hmem⟩
      · rintro (⟨ids2, hids2, hmem⟩ | ⟨heq1, heq2⟩)
        · by_cases hc : key = c
          · subst hc
            rw [hl] at hids2
            have hid : ids = ids2 := Option.some.inj hids2
            subst hid
            refine ⟨addS ids id, ?_, (mem_addS ids id id2).mpr (Or.inl hmem)⟩
            rw [lookupKV_setKV, if_pos rfl]
          · refine ⟨ids2, ?_, hmem⟩
            rw [lookupKV_setKV, if_neg hc]
            exact hids2
        · refine ⟨addS ids id, ?_, ?_⟩
          · rw [lookupKV_setKV, if_pos heq2.symm]
          · rw [heq1]
            exact (mem_addS ids id id).mpr (Or.inr rfl)
  | none =>
      have hstep : indexAdd idx key id = setKV idx key (addS [] id) := by
        unfold indexAdd
        rw [hl]
      have haddnil : addS ([] : List String) id = [id] := by simp [addS]
      rw [hstep]
      simp only [memIndex]
      constructor
      · rintro ⟨ids2, hids2, hmem⟩
        rw [lookupKV_setKV] at hids2
        by_cases hc : key = c
        · rw [if_pos hc] at hids2
          have hid : addS [] id = ids2 := Option.some.inj hids2
          subst hid
          rw [haddnil] at hmem
          have h1 : id2 = id := List.mem_singleton.mp hmem
          exact Or.inr ⟨h1, hc.symm⟩
        · rw [if_neg hc] at hids2
          exact Or.inl ⟨ids2, hids2, hmem⟩
      · rintro (⟨ids2, hids2, hmem⟩ | ⟨heq1, heq2⟩)
        · by_cases hc : key = c
          · subst hc
            rw [hl] at hids2
            cases hids2
          · refine ⟨ids2, ?_, hmem⟩
            rw [lookupKV_setKV, if_neg hc]
            exact hids2
        · refine ⟨addS [] id, ?_, ?_⟩
          · rw [lookupKV_setKV, if_pos heq2.symm]
          · rw [haddnil, heq1]
            exact List.mem_singleton.mpr rfl

theorem memIndex_indexRemove (idx : List (String × List String)) (key id c id2 : String) :
    memIndex (indexRemove idx key id) c id2
      ↔ memIndex idx c id2 ∧ ¬ (id2 = id ∧ c = key) := by
  cases hl : lookupKV idx key with
  | some ids =>
      by_cases hemp : (delS ids id).isEmpty
      · have hnil : delS ids id = [] := List.isEmpty_iff.mp hemp
        have hstep : indexRemove idx key id = eraseKV idx key := by
          unfold indexRemove
          rw [hl]
          simp [hemp]
        rw [hstep]
        simp only [memIndex]
        constructor
        · rintro ⟨ids2, hids2, hmem⟩
          rw [lookupKV_eraseKV] at hids2
          by_cases hc : key = c
          · rw [if_pos hc] at hids2
            cases hids2
          · rw [if_neg hc] at hids2
            refine ⟨⟨ids2, hids2, hmem⟩, ?_⟩
            rintro ⟨_, heq2⟩
            exact hc heq2.symm
        · rintro ⟨⟨ids2, hids2, hmem⟩, hnot⟩
          by_cases hc : key = c
          · subst hc
            rw [hl] at hids2
            have hid : ids = ids2 := Option.some.inj hids2
            subst hid
            have h1 : id2 = id := delS_eq_nil_forall ids id hnil id2 hmem
            exact absurd ⟨h1, rfl⟩ hnot
          · refine ⟨ids2, ?_, hmem⟩
            rw [lookupKV_eraseKV, if_neg hc]
            exact hids2
      · have hstep : indexRemove idx key id = setKV idx key (delS ids id) := by
          unfold indexRemove
          rw [hl]
          simp [hemp]
        rw [hstep]
        simp only [memIndex]
        constructor
        · rintro ⟨ids2, hids2, hmem⟩
          rw [lookupKV_setKV] at hids2
          by_cases hc : key = c
          · rw [if_pos hc] at hids2
            have hid : delS ids id = ids2 := Option.some.inj hids2
            subst hid
            obtain ⟨hmem2, hne⟩ := (mem_delS ids id id2).mp hmem
            refine ⟨⟨ids, hc ▸ hl, hmem2⟩, ?_⟩
            rintro ⟨heq1, _⟩
            exact hne heq1
          · rw [if_neg hc] at hids2
            refine ⟨⟨ids2, hids2, hmem⟩, ?_⟩
            rintro ⟨_, heq2⟩
            exact hc heq2.symm
        · rintro ⟨⟨ids2, hids2, hmem⟩, hnot⟩
          by_cases hc : key = c
          · subst hc
            rw [hl] at hids2
            have hid : ids = ids2 := Option.some.inj hids2
            subst hid
            have hne : id2 ≠ id := fun h2 => hnot ⟨h2, rfl⟩
            refine ⟨delS ids id, ?_, (mem_delS ids id id2).mpr ⟨hmem, hne⟩⟩
            rw [lookupKV_setKV, if_pos rfl]
          · refine ⟨ids2, ?_, hmem⟩
            rw [lookupKV_setKV, if_neg hc]
            exact hids2
  | none =>
      have hstep : indexRemove idx key id = idx := by
        unfold indexRemove
        rw [hl]
      rw [hstep]
      simp only [memIndex]
      constructor
      · rintro ⟨ids2, hids2, hmem⟩
        refine ⟨⟨ids2, hids2, hmem⟩, ?_⟩
        rintro ⟨_, heq2⟩
        rw [heq2] at hids2
        rw [hl] at hids2
        cases hids2
      · rintro ⟨⟨ids2, hids2, hmem⟩, _⟩
        exact ⟨ids2, hids2, hmem⟩

theorem memIndex_foldAdd (keys : List String) (id : String)
    (idx : List (String × List String)) (c id2 : String) :
    memIndex (keys.foldl (fun ci k => indexAdd ci k id) idx) c id2
      ↔ memIndex idx c id2 ∨ (id2 = id ∧ c ∈ keys) := by
  induction keys generalizing idx with
  | nil => simp
  | cons key rest ih =>
      simp only [List.foldl_cons]
      rw [ih, memIndex_indexAdd]
      simp only [List.mem_cons]
      tauto

theorem memIndex_foldRemove (keys : List String) (id : String)
    (idx : List (String × List String)) (c id2 : String) :
    memIndex (keys.foldl (fun ci k => indexRemove ci k id) idx) c id2
      ↔ memIndex idx c id2 ∧ ¬ (id2 = id ∧ c ∈ keys) := by
  induction keys generalizing idx with
  | nil => simp
  | cons key rest ih =>
      simp only [List.foldl_cons]
      rw [ih, memIndex_indexRemove]
      simp only [List.mem_cons]
      tauto

theorem keysNodup_indexAdd (idx : List (String × List String)) (key id : String)
    (h : (idx.map Prod.fst).Nodup) : ((indexAdd idx key id).map Prod.fst).Nodup := by
  cases hl : lookupKV idx key with
  | some ids =>
      have hstep : indexAdd idx key id = setKV idx key (addS ids id) := by
        unfold indexAdd
        rw [hl]
      rw [hstep]
      exact keysNodup_setKV idx key (addS ids id) h
  | none =>
      have hstep : indexAdd idx key id = setKV idx key (addS [] id) := by
        unfold indexAdd
        rw [hl]
      rw [hstep]
      exact keysNodup_setKV idx key (addS [] id) h

theorem keysNodup_indexRemove (idx : List (String × List String)) (key id : String)
    (h : (idx.map Prod.fst).Nodup) : ((indexRemove idx key id).map Prod.fst).Nodup := by
  cases hl : lookupKV idx key with
  | some ids =>
      by_cases hemp : (delS ids id).isEmpty
      · have hstep : indexRemove idx key id = eraseKV idx key := by
          unfold indexRemove
          rw [hl]
          simp [hemp]
        rw [hstep]
        exact keysNodup_eraseKV idx key h
      · have hstep : indexRemove idx key id = setKV idx key (delS ids id) := by
          unfold indexRemove
          rw [hl]
          simp [hemp]
        rw [hstep]
        exact keysNodup_setKV idx key (delS ids id) h
  | none =>
      have hstep : indexRemove idx key id = idx := by
        unfold indexRemove
        rw [hl]
      rw [hstep]
      exact h

theorem keysNodup_foldAdd (keys : List String) (id : String)
    (idx : List (String × List String)) (h : (idx.map Prod.fst).Nodup) :
    ((keys.foldl (fun ci k => indexAdd ci k id) idx).map Prod.fst).Nodup := by
  induction keys generalizing idx with
  | nil => exact h
  | cons key rest ih =>
      simp only [List.foldl_cons]
      exact ih (indexAdd idx key id) (keysNodup_indexAdd idx key id h)

theorem keysNodup_foldRemove (keys : List String) (id : String)
    (idx : List (String × List String)) (h : (idx.map Prod.fst).Nodup) :
    ((keys.foldl (fun ci k => indexRemove ci k id) idx).map Prod.fst).Nodup := by
  induction keys generalizing idx with
  | nil => exact h
  | cons key rest ih =>
      simp only [List.foldl_cons]
      exact ih (indexRemove idx key id) (keysNodup_indexRemove idx key id h)

theorem regInv_register (capsOf : String → Caps) (info : WorkerInfo) (s : RegState)
    (hinfo : info.capabilities = capsOf info.id) (hinv : regInv capsOf s) :
    regInv capsOf (registerWorker info s) := by
  obtain ⟨ha, hb, hc, hd, he⟩ := hinv
  refine ⟨?_, ?_, ?_, ?_, ?_⟩
  · intro id w hw
    simp only [registerWorker, lookupKV_setKV] at hw
    by_cases hid : info.id = id
    · rw [if_pos hid] at hw
      have : info = w := Option.some.inj hw
      subst this
      rw [hinfo, hid]
    · rw [if_neg hid] at hw
      exact ha id w hw
  · intro c id2 hm
    rw [show (registerWorker info s).capabilityIndex
          = info.capabilities.tags.foldl (fun ci k => indexAdd ci k info.id) s.capabilityIndex
        from rfl, memIndex_foldAdd] at hm
    rcases hm with hm | ⟨rfl, htag⟩
    · obtain ⟨h1, h2⟩ := hb c id2 hm
      refine ⟨?_, h2⟩
      simp only [registerWorker, lookupKV_setKV]
      by_cases hid : info.id = id2
      · rw [if_pos hid]; rfl
      · rw [if_neg hid]; exact h1
    · refine ⟨?_, ?_⟩
      · simp only [registerWorker, lookupKV_setKV, if_pos rfl]; rfl
      · rw [← hinfo]; exact htag
  · intro m id2 hm
    rw [show (registerWorker info s).modelIndex
          = info.capabilities.models.foldl (fun mi k => indexAdd mi k info.id) s.modelIndex
        from rfl, memIndex_foldAdd] at hm
    rcases hm with hm | ⟨rfl, hmod⟩
    · obtain ⟨h1, h2⟩ := hc m id2 hm
      refine ⟨?_, h2⟩
      simp only [registerWorker, lookupKV_setKV]
      by_cases hid : info.id = id2
      · rw [if_pos hid]; rfl
      · rw [if_neg hid]; exact h1
    · refine ⟨?_, ?_⟩
      · simp only [registerWorker, lookupKV_setKV, if_pos rfl]; rfl
      · rw [← hinfo]; exact hmod
  · exact keysNodup_foldAdd info.capabilities.tags info.id s.capabilityIndex hd
  · exact keysNodup_foldAdd info.capabilities.models info.id s.modelIndex he

theorem regInv_unregister (capsOf : String → Caps) (wid : String) (s : RegState)
    (hinv : regInv capsOf s) : regInv capsOf (unregisterWorker wid s) := by
  obtain ⟨ha, hb, hc, hd, he⟩ := hinv
  unfold unregisterWorker
  cases hw : lookupKV s.workers wid with
  | none => exact ⟨ha, hb, hc, hd, he⟩
  | some w =>
      have hwcaps : w.capabilities = capsOf wid := ha wid w hw
      refine ⟨?_, ?_, ?_, ?_, ?_⟩
      · intro id w2 hw2
        simp only [lookupKV_eraseKV] at hw2
        by_cases hid : wid = id
        · rw [if_pos hid] at hw2
          cases hw2
        · rw [if_neg hid] at hw2
          exact ha id w2 hw2
      · intro c id2 hm
        rw [memIndex_foldRemove] at hm
        obtain ⟨hm, hnot⟩ := hm
        obtain ⟨h1, h2⟩ := hb c id2 hm
        refine ⟨?_, h2⟩
        simp only [lookupKV_eraseKV]
        by_cases hid : wid = id2
        · exfalso
          apply hnot
          refine ⟨hid.symm, ?_⟩
          rw [hwcaps, hid]
          exact h2
        · rw [if_neg hid]
          exact h1
      · intro m id2 hm
        rw [memIndex_foldRemove] at hm
        obtain ⟨hm, hnot⟩ := hm
        obtain ⟨h1, h2⟩ := hc m id2 hm
        refine ⟨?_, h2⟩
        simp only [lookupKV_eraseKV]
        by_cases hid : wid = id2
        · exfalso
          apply hnot
          refine ⟨hid.symm, ?_⟩
          rw [hwcaps, hid]
          exact h2
        · rw [if_neg hid]
          exact h1
      · exact keysNodup_foldRemove w.capabilities.tags wid s.capabilityIndex hd
      · exact keysNodup_foldRemove w.capabilities.models wid s.modelIndex he

theorem noDangling_of_regInv (capsOf : String → Caps) (s : RegState)
    (hinv : regInv capsOf s) : noDangling s = true := by
  obtain ⟨_, hb, hc, hd, he⟩ := hinv
  unfold noDangling
  rw [Bool.and_eq_true]
  constructor
  · rw [List.all_eq_true]
    intro e hent
    rw [List.all_eq_true]
    intro id hid
    have hm : memIndex s.capabilityIndex e.1 id :=
      ⟨e.2, lookupKV_of_mem_nodup s.capabilityIndex e.1 e.2 (by simpa using hent) hd, hid⟩
    exact (hb e.1 id hm).1
  · rw [List.all_eq_true]
    intro e hent
    rw [List.all_eq_true]
    intro id hid
    have hm : memIndex s.modelIndex e.1 id :=
      ⟨e.2, lookupKV_of_mem_nodup s.modelIndex e.1 e.2 (by simpa using hent) he, hid⟩
    exact (hc e.1 id hm).1

/-- C3 counterexample: register `w1` with capability tag `a`, re-register it
with tag `b`, then unregister it.  Unregistration only cleans the indices
named by the *current* capabilities, so the stale entry `("a", {"w1"})`
survives while `w1` is gone from the main map — a dangling index entry. -/
theorem registry_dangling_after_reregistration :
    lookupKV (regExec
        [RegOp.register ⟨"w1", "addr", ⟨["a"], []⟩, "active", 0, 0⟩,
         RegOp.register ⟨"w1", "addr", ⟨["b"], []⟩, "active", 0, 0⟩,
         RegOp.unregister "w1"] regInit).capabilityIndex "a" = some ["w1"]
    ∧ lookupKV (regExec
        [RegOp.register ⟨"w1", "addr", ⟨["a"], []⟩, "active", 0, 0⟩,
         RegOp.register ⟨"w1", "addr", ⟨["b"], []⟩, "active", 0, 0⟩,
         RegOp.unregister "w1"] regInit).workers "w1" = none
    ∧ noDangling (regExec
        [RegOp.register ⟨"w1", "addr", ⟨["a"], []⟩, "active", 0, 0⟩,
         RegOp.register ⟨"w1", "addr", ⟨["b"], []⟩, "active", 0, 0⟩,
         RegOp.unregister "w1"] regInit) = false := by
  refine ⟨rfl, rfl, rfl⟩

/-- C3 amended: after any finite sequence of `registerWorker` and
`unregisterWorker` calls in which every registration of a given worker id
carries the same capability list and model list (no re-registration with a
changed set), every `(capability, id)` entry of `capabilityIndex` and every
`(modelId, id)` entry of `modelIndex` refers to an id that is a key of the
main `workers` map: no dangling index entry. -/
theorem registry_noDangling_of_consistent (capsOf : String → Caps) (ops : List RegOp)
    (hops : opsConsistent capsOf ops = true) :
    noDangling (regExec ops regInit) = true := by
  have hinit : regInv capsOf regInit := by
    refine ⟨?_, ?_, ?_, ?_, ?_⟩
    · intro id w hw
      cases hw
    · rintro c id2 ⟨ids, hids, _⟩
      cases hids
    · rintro m id2 ⟨ids, hids, _⟩
      cases hids
    · simp [regInit]
    · simp [regInit]
  suffices hgen : ∀ s, regInv capsOf s → regInv capsOf (regExec ops s) from
    noDangling_of_regInv capsOf _ (hgen regInit hinit)
  induction ops with
  | nil =>
      intro s hs
      simpa [regExec] using hs
  | cons op rest ih =>
      intro s hs
      simp only [opsConsistent, List.all_cons, Bool.and_eq_true] at hops
      have hrest : opsConsistent capsOf rest = true := hops.2
      have hstep : regInv capsOf (regStep s op) := by
        cases op with
        | register info =>
            have hinfo : info.capabilities = capsOf info.id := by
              have := hops.1
              simpa using this
            exact regInv_register capsOf info s hinfo hs
        | unregister wid => exact regInv_unregister capsOf wid s hs
      simpa [regExec, List.foldl_cons] using ih hrest (regStep s op) hstep

/-- Witness for the amended C3 at a concrete consistent call sequence:
register, unregister, re-register a different worker — no dangling entry. -/
theorem registry_noDangling_witness :
    opsConsistent (fun _ => ⟨["a"], ["m"]⟩)
        [RegOp.register ⟨"w1", "addr", ⟨["a"], ["m"]⟩, "active", 0, 0⟩,
         RegOp.unregister "w1",
         RegOp.register ⟨"w2", "addr2", ⟨["a"], ["m"]⟩, "active", 1, 1⟩] = true
    ∧ noDangling (regExec
        [RegOp.register ⟨"w1", "addr", ⟨["a"], ["m"]⟩, "active", 0, 0⟩,
         RegOp.unregister "w1",
         RegOp.register ⟨"w2", "addr2", ⟨["a"], ["m"]⟩, "active", 1, 1⟩] regInit) = true :=
  ⟨rfl,
   registry_noDangling_of_consistent (fun _ => ⟨["a"], ["m"]⟩)
     [RegOp.register ⟨"w1", "addr", ⟨["a"], ["m"]⟩, "active", 0, 0⟩,
      RegOp.unregister "w1",
      RegOp.register ⟨"w2", "addr2", ⟨["a"], ["m"]⟩, "active", 1, 1⟩] rfl⟩

end Registry

/-! ## Claims about the health monitor -/

namespace Health

/-- C2: health quarantine is not enforced by the code.  Register worker `w1`
serving model `m1` and let its probe fail three consecutive times: the
monitor's own record does reach `status = "unhealthy"` with
`consecutiveFailures = 3`, yet `getWorkersForModel "m1"` still returns `w1`
(the registry's status field, which that filter reads, was never touched and
stays `active`), and even a subsequent successful probe leaves the monitor's
record `unhealthy` — the success path never restores the status, so neither
the exclusion nor the readmission required by the claim ever happens. -/
theorem quarantine_not_enforced :
    ((lookupKV (sysProbe "w1" false 3 (sysProbe "w1" false 2 (sysProbe "w1" false 1
        (sysRegister "w1" "addr1" ⟨[], ["m1"]⟩ 0 ⟨Registry.regInit, []⟩)))).mon "w1").map
        (fun r => (r.status, r.consecutiveFailures))
      = some ("unhealthy", 3))
    ∧ ((Registry.getWorkersForModel "m1"
        (sysProbe "w1" false 3 (sysProbe "w1" false 2 (sysProbe "w1" false 1
        (sysRegister "w1" "addr1" ⟨[], ["m1"]⟩ 0 ⟨Registry.regInit, []⟩)))).reg).map
        Registry.WorkerInfo.id = ["w1"])
    ∧ ((lookupKV (sysProbe "w1" true 4 (sysProbe "w1" false 3 (sysProbe "w1" false 2
        (sysProbe "w1" false 1
        (sysRegister "w1" "addr1" ⟨[], ["m1"]⟩ 0 ⟨Registry.regInit, []⟩))))).mon "w1").map
        (fun r => (r.status, r.consecutiveFailures))
      = some ("unhealthy", 0)) := by
  refine ⟨rfl, rfl, rfl⟩

end Health

/-! ## Claims about the gateway rate limiter -/

namespace Gateway

theorem lookupKV_filter_preserved {β : Type} (l : List (String × β)) (c : String) (e : β)
    (p : String × β → Bool) (he : lookupKV l c = some e) (hp : p (c, e) = true) :
    lookupKV (l.filter p) c = some e := by
  induction l with
  | nil => cases he
  | cons q rest ih =>
      obtain ⟨k2, v2⟩ := q
      by_cases hk : k2 = c
      · subst hk
        have hv : v2 = e := by
          simpa [lookupKV] using he
        subst hv
        rw [List.filter_cons, if_pos hp]
        simp [lookupKV]
      · have he2 : lookupKV rest c = some e := by
          simpa [lookupKV, hk] using he
        rw [List.filter_cons]
        by_cases hq : p (k2, v2) = true
        · rw [if_pos hq]
          simpa [lookupKV, hk] using ih he2
        · rw [if_neg hq]
          exact ih he2

/-- A denied request reveals: limiting is enabled, the client's entry is
inside its window with the cap reached, and the state is left unchanged. -/
theorem checkRateLimit_denied_inv (conf : RateConf) (c : String) (now : Int)
    (st : List (String × RLEntry)) (e : RLEntry) (he : lookupKV st c = some e)
    (hdeny : (checkRateLimit conf c now st).1 = false) :
    conf.enabled = true ∧ ¬ (windowMsOf conf < now - e.windowStart)
    ∧ maxRequestsOf conf ≤ e.requests
    ∧ (checkRateLimit conf c now st).2 = st := by
  unfold checkRateLimit at hdeny ⊢
  by_cases hen : conf.enabled = false
  · rw [if_pos hen] at hdeny
    cases hdeny
  · rw [if_neg hen] at hdeny ⊢
    rw [he] at hdeny ⊢
    dsimp only at hdeny ⊢
    by_cases hw : windowMsOf conf < now - e.windowStart
    · rw [if_pos hw] at hdeny
      cases hdeny
    · rw [if_neg hw] at hdeny ⊢
      by_cases hm : maxRequestsOf conf ≤ e.requests
      · rw [if_pos hm]
        refine ⟨by simpa using hen, hw, hm, rfl⟩
      · rw [if_neg hm] at hdeny
        cases hdeny

/-- While every observed event happens no later than the end of the client's
window, the client's at-cap entry survives requests from any client and
cleanup ticks unchanged. -/
theorem entry_preserved (conf : RateConf) (c : String) (e : RLEntry)
    (hmax : maxRequestsOf conf ≤ e.requests) (hwm : 0 ≤ windowMsOf conf)
    (evs : List GwEvent) :
    ∀ st, lookupKV st c = some e →
      (∀ ev ∈ evs, eventTime ev ≤ e.windowStart + windowMsOf conf) →
      lookupKV (gwExec conf evs st) c = some e := by
  induction evs with
  | nil =>
      intro st he _
      simpa [gwExec] using he
  | cons ev rest ih =>
      intro st he hevs
      have hevr : ∀ ev2 ∈ rest, eventTime ev2 ≤ e.windowStart + windowMsOf conf :=
        fun ev2 h2 => hevs ev2 (List.mem_cons_of_mem ev h2)
      have hstep : lookupKV (gwStep conf st ev) c = some e := by
        cases ev with
        | request c2 t =>
            have ht : t ≤ e.windowStart + windowMsOf conf :=
              hevs (GwEvent.request c2 t) (List.mem_cons_self _ _)
            simp only [gwStep]
            unfold checkRateLimit
            by_cases hen : conf.enabled = false
            · rw [if_pos hen]
              exact he
            · rw [if_neg hen]
              by_cases hcc : c2 = c
              · subst hcc
                rw [he]
                dsimp only
                have hw : ¬ (windowMsOf conf < t - e.windowStart) := by
                  intro hlt
                  omega
                rw [if_neg hw, if_pos hmax]
                exact he
              · have hne : ¬ c2 = c := hcc
                cases hl2 : lookupKV st c2 with
                | none =>
                    dsimp only
                    rw [lookupKV_setKV, if_neg hne]
                    exact he
                | some e2 =>
                    dsimp only
                    by_cases hw2 : windowMsOf conf < t - e2.windowStart
                    · rw [if_pos hw2, lookupKV_setKV, if_neg hne]
                      exact he
                    · rw [if_neg hw2]
                      by_cases hm2 : maxRequestsOf conf ≤ e2.requests
                      · rw [if_pos hm2]
                        exact he
                      · rw [if_neg hm2, lookupKV_setKV, if_neg hne]
                        exact he
        | cleanup t =>
            have ht : t ≤ e.windowStart + windowMsOf conf :=
              hevs (GwEvent.cleanup t) (List.mem_cons_self _ _)
            simp only [gwStep]
            unfold rateLimitCleanup
            refine lookupKV_filter_preserved st c e _ he ?_
            have hkeep : ¬ (2 * windowMsOf conf < t - e.windowStart) := by omega
            simpa using hkeep
      have : gwExec conf (ev :: rest) st = gwExec conf rest (gwStep conf st ev) := by
        simp [gwExec, List.foldl_cons]
      rw [this]
      exact ih (gwStep conf st ev) hstep hevr

/-- C4: the rate limiter is monotone within a window.  Suppose a request
from client `c` at time `t` is denied (its entry `e` is at the cap inside
its window).  Then after any further events — requests from any clients and
cleanup ticks — that occur no later than `e.windowStart + windowMs`, a next
request from `c` at time `t2` is denied again whenever
`t2 − e.windowStart ≤ windowMs`, and as soon as `t2 − e.windowStart >
windowMs` it is allowed with the window reset to
`{requests: 1, windowStart: t2}`. -/
theorem rateLimit_monotone_in_window (conf : RateConf) (st : List (String × RLEntry))
    (c : String) (t : Int) (e : RLEntry)
    (he : lookupKV st c = some e)
    (hdeny : (checkRateLimit conf c t st).1 = false)
    (hwm : 0 ≤ windowMsOf conf)
    (evs : List GwEvent)
    (hevs : ∀ ev ∈ evs, eventTime ev ≤ e.windowStart + windowMsOf conf)
    (t2 : Int) :
    (t2 - e.windowStart ≤ windowMsOf conf →
        (checkRateLimit conf c t2 (gwExec conf evs (checkRateLimit conf c t st).2)).1
          = false)
    ∧ (windowMsOf conf < t2 - e.windowStart →
        (checkRateLimit conf c t2 (gwExec conf evs (checkRateLimit conf c t st).2)).1
          = true
        ∧ lookupKV
            (checkRateLimit conf c t2 (gwExec conf evs (checkRateLimit conf c t st).2)).2 c
          = some ⟨1, t2⟩) := by
  obtain ⟨hen, hw, hmax, hst⟩ := checkRateLimit_denied_inv conf c t st e he hdeny
  rw [hst]
  have hkeep : lookupKV (gwExec conf evs st) c = some e :=
    entry_preserved conf c e hmax hwm evs st he hevs
  have hen2 : ¬ conf.enabled = false := by simp [hen]
  constructor
  · intro hle
    unfold checkRateLimit
    rw [if_neg hen2, hkeep]
    dsimp only
    have hw2 : ¬ (windowMsOf conf < t2 - e.windowStart) := by omega
    rw [if_neg hw2, if_pos hmax]
  · intro hgt
    unfold checkRateLimit
    rw [if_neg hen2, hkeep]
    dsimp only
    rw [if_pos hgt]
    exact ⟨rfl, by rw [lookupKV_setKV, if_pos rfl]⟩

end Gateway

/-! ## Claims about the model store -/

namespace Storage

/-- C6: checksum round-trip.  For every model id and every byte list within
`maxModelSize`, storing succeeds, fetching the blob under the returned
storage key yields exactly the stored bytes, and validating the storage key
against the returned checksum (recomputing the digest of the stored bytes)
returns true — for any digest function, since the stored bytes are returned
unchanged. -/
theorem checksum_roundtrip (shaStr : String → String) (shaBytes : List Nat → String)
    (conf : StorageConf) (modelId : String) (bytes : List Nat)
    (fs : List (String × List Nat))
    (hsize : (bytes.length : ℚ) ≤ conf.maxModelSize) :
    ∃ res : StoreResult,
      (storeModel shaStr shaBytes conf modelId bytes fs).1 = .ok res
      ∧ getModel conf res.key (storeModel shaStr shaBytes conf modelId bytes fs).2.1
          = .ok bytes
      ∧ validateChecksum shaBytes conf res.key res.checksum
          (storeModel shaStr shaBytes conf modelId bytes fs).2.1 = .ok true := by
  have hnot : ¬ conf.maxModelSize < (bytes.length : ℚ) := not_lt.mpr hsize
  refine ⟨⟨generateStorageKey shaStr modelId,
           pathJoin conf.storagePath (generateStorageKey shaStr modelId),
           calculateChecksum shaBytes bytes, bytes.length⟩, ?_, ?_, ?_⟩
  · unfold storeModel
    rw [if_neg hnot]
  · unfold storeModel getModel
    rw [if_neg hnot]
    dsimp only
    rw [lookupKV_setKV, if_pos rfl]
  · unfold storeModel validateChecksum getModel
    rw [if_neg hnot]
    dsimp only
    rw [lookupKV_setKV, if_pos rfl]
    simp [calculateChecksum]

/-- Witness for C6 at a concrete input. -/
theorem checksum_roundtrip_witness :
    (((([1, 2] : List Nat).length : ℚ) ≤ (10 : ℚ))
    ∧ ∃ res : StoreResult,
      (storeModel (fun s => s) (fun _ => "h") ⟨"st", 10⟩ "m" [1, 2] []).1 = .ok res
      ∧ getModel ⟨"st", 10⟩ res.key
          (storeModel (fun s => s) (fun _ => "h") ⟨"st", 10⟩ "m" [1, 2] []).2.1 = .ok [1, 2]
      ∧ validateChecksum (fun _ => "h") ⟨"st", 10⟩ res.key res.checksum
          (storeModel (fun s => s) (fun _ => "h") ⟨"st", 10⟩ "m" [1, 2] []).2.1 = .ok true) :=
  ⟨by norm_num,
   checksum_roundtrip (fun s => s) (fun _ => "h") ⟨"st", 10⟩ "m" [1, 2] [] (by norm_num)⟩

/-- C7 counterexample: a successful store performs exactly one direct
`fs.writeFile` of the bytes at the final storage path — the operation trace
is a single write to the final path and is not of the
write-to-temp-then-rename shape the claim asserts. -/
theorem store_not_temp_rename :
    (storeModel (fun _ => "k") (fun _ => "c") ⟨"st", 10⟩ "m" [1] []).1
      = .ok ⟨"k.model", "st/k.model", "c", 1⟩
    ∧ (storeModel (fun _ => "k") (fun _ => "c") ⟨"st", 10⟩ "m" [1] []).2.2
      = [FsOp.write "st/k.model" [1]]
    ∧ writesViaTempRename
        (storeModel (fun _ => "k") (fun _ => "c") ⟨"st", 10⟩ "m" [1] []).2.2
        "st/k.model" [1] = false := by
  refine ⟨rfl, rfl, rfl⟩

/-- C7 amended: `storeModel` fails with `ERR_MODEL_TOO_LARGE` (leaving the
filesystem untouched and performing no filesystem operation) whenever the
byte length exceeds `maxModelSize`, and on success it writes the blob with a
single direct `writeFile` to the final storage path — not via a temporary
file and rename. -/
theorem storeModel_size_gate_and_direct_write (shaStr : String → String)
    (shaBytes : List Nat → String) (conf : StorageConf) (modelId : String)
    (bytes : List Nat) (fs : List (String × List Nat)) :
    (conf.maxModelSize < (bytes.length : ℚ) →
       storeModel shaStr shaBytes conf modelId bytes fs
         = (.error "ERR_MODEL_TOO_LARGE", fs, []))
    ∧ ((bytes.length : ℚ) ≤ conf.maxModelSize →
       storeModel shaStr shaBytes conf modelId bytes fs
         = (.ok ⟨generateStorageKey shaStr modelId,
                 pathJoin conf.storagePath (generateStorageKey shaStr modelId),
                 calculateChecksum shaBytes bytes, bytes.length⟩,
            setKV fs (pathJoin conf.storagePath (generateStorageKey shaStr modelId)) bytes,
            [FsOp.write (pathJoin conf.storagePath (generateStorageKey shaStr modelId))
               bytes])) := by
  constructor
  · intro h
    unfold storeModel
    rw [if_pos h]
  · intro h
    unfold storeModel
    rw [if_neg (not_lt.mpr h)]

/-- Witness for the amended C7 at concrete inputs: an 11-byte blob against a
10-byte cap is rejected with no filesystem operation, and a 1-byte blob is
written directly. -/
theorem storeModel_size_gate_witness :
    (((10 : ℚ) < ((List.replicate 11 (0 : Nat)).length : ℚ))
      ∧ storeModel (fun _ => "k") (fun _ => "c") ⟨"st", 10⟩ "m"
          (List.replicate 11 (0 : Nat)) []
        = (.error "ERR_MODEL_TOO_LARGE", [], []))
    ∧ (((([1] : List Nat).length : ℚ) ≤ (10 : ℚ))
      ∧ storeModel (fun _ => "k") (fun _ => "c") ⟨"st", 10⟩ "m" [1] []
        = (.ok ⟨"k.model", "st/k.model", "c", 1⟩,
           [("st/k.model", [1])], [FsOp.write "st/k.model" [1]])) := by
  refine ⟨⟨by norm_num, ?_⟩, ⟨by norm_num, ?_⟩⟩
  · exact (storeModel_size_gate_and_direct_write (fun _ => "k") (fun _ => "c")
      ⟨"st", 10⟩ "m" (List.replicate 11 (0 : Nat)) []).1 (by norm_num)
  · exact (storeModel_size_gate_and_direct_write (fun _ => "k") (fun _ => "c")
      ⟨"st", 10⟩ "m" [1] []).2 (by norm_num)

end Storage

/-! ## Claims about the weighted load-balancing strategy -/

namespace Balancer

theorem cumWeight_nonneg {α : Type} (l : List (α × ℚ)) (hnn : ∀ p ∈ l, 0 ≤ p.2)
    (i : Nat) : 0 ≤ cumWeight l i := by
  unfold cumWeight
  apply List.sum_nonneg
  intro x hx
  obtain ⟨p, hp, rfl⟩ := List.mem_map.mp hx
  exact hnn p (List.mem_of_mem_take hp)

theorem selectWeightedGo_interval {α : Type} (l : List (α × ℚ)) :
    ∀ (i : Nat) (hi : i < l.length) (r : ℚ),
      (∀ p ∈ l, 0 ≤ p.2) → cumWeight l i < r → r ≤ cumWeight l (i + 1) →
      selectWeightedGo r l = some (l.get ⟨i, hi⟩).1 := by
  induction l with
  | nil =>
      intro i hi
      exact absurd hi (Nat.not_lt_zero i)
  | cons p rest ih =>
      obtain ⟨w, wt⟩ := p
      intro i hi r hnn hlo hhi
      cases i with
      | zero =>
          have h1 : cumWeight ((w, wt) :: rest) 1 = wt := by
            simp [cumWeight]
          have h0 : cumWeight ((w, wt) :: rest) 0 = 0 := by
            simp [cumWeight]
          rw [h0] at hlo
          rw [h1] at hhi
          unfold selectWeightedGo
          rw [if_pos (by linarith)]
          rfl
      | succ j =>
          have hcons : cumWeight ((w, wt) :: rest) (j + 1) = wt + cumWeight rest j := by
            simp [cumWeight, List.take_succ_cons]
          have hcons2 : cumWeight ((w, wt) :: rest) (j + 2) = wt + cumWeight rest (j + 1) := by
            simp [cumWeight, List.take_succ_cons]
          rw [hcons] at hlo
          rw [hcons2] at hhi
          have hnnr : ∀ p ∈ rest, 0 ≤ p.2 := fun p hp => hnn p (List.mem_cons_of_mem _ hp)
          have hc0 : 0 ≤ cumWeight rest j := cumWeight_nonneg rest hnnr j
          have hgt : ¬ (r - wt ≤ 0) := by linarith
          unfold selectWeightedGo
          rw [if_neg hgt]
          have hj : j < rest.length := Nat.lt_of_succ_lt_succ hi
          have hrec := ih j hj (r - wt) hnnr (by linarith) (by linarith)
          simpa using hrec

/-- C8 amended: the weighted strategy samples proportionally to the weights
the code computes: `w = successRate * (1000 / avgTime)` with `avgTime` the
recorded average when nonzero and 1000 otherwise (the JS `avg || 1000`
default), weight 1 for unknown stats.  Concretely, when the draw
`r = Math.random() * totalWeight` falls in the half-open slice
`(cum(i), cum(i+1)]` of the cumulative weights (slice length = the weight of
candidate `i`), candidate `i` is selected — proportional sampling, given the
nonnegative weights genuine stats produce. -/
theorem selectWeighted_proportional {α : Type} (sts : List (String × WStats))
    (idOf : α → String) (ws : List α) (r : ℚ) (i : Nat)
    (hi : i < ws.length)
    (hnn : ∀ p ∈ weightedList sts idOf ws, 0 ≤ p.2)
    (hlo : cumWeight (weightedList sts idOf ws) i < r)
    (hhi : r ≤ cumWeight (weightedList sts idOf ws) (i + 1)) :
    selectWeighted sts idOf ws r = some (ws.get ⟨i, hi⟩) := by
  have hlen : i < (weightedList sts idOf ws).length := by
    simpa [weightedList] using hi
  have hgo := selectWeightedGo_interval (weightedList sts idOf ws) i hlen r hnn hlo hhi
  unfold selectWeighted
  rw [hgo]
  simp [weightedList]

/-- Witness for the amended C8: two candidates with no recorded stats get
weight 1 each; a draw of 1/2 lies in the first candidate's slice (0, 1], so
the first candidate is selected. -/
theorem selectWeighted_proportional_witness :
    ((0 : Nat) < (["A", "B"] : List String).length
    ∧ (∀ p ∈ weightedList [] (fun s => s) (["A", "B"] : List String), 0 ≤ p.2)
    ∧ cumWeight (weightedList [] (fun s => s) (["A", "B"] : List String)) 0 < (1 / 2 : ℚ)
    ∧ (1 / 2 : ℚ) ≤ cumWeight (weightedList [] (fun s => s) (["A", "B"] : List String)) 1
    ∧ selectWeighted [] (fun s => s) (["A", "B"] : List String) (1 / 2) = some "A") := by
  have h := selectWeighted_proportional [] (fun s => s) (["A", "B"] : List String)
    (1 / 2) 0 (by decide)
    (by
      intro p hp
      simp [weightedList, weightOf, lookupKV] at hp
      rcases hp with h1 | h1 <;> subst h1 <;> norm_num)
    (by norm_num [cumWeight, weightedList, weightOf, lookupKV])
    (by norm_num [cumWeight, weightedList, weightOf, lookupKV])
  refine ⟨by decide, ?_, ?_, ?_, ?_⟩
  · intro p hp
    simp [weightedList, weightOf, lookupKV] at hp
    rcases hp with h1 | h1 <;> subst h1 <;> norm_num
  · norm_num [cumWeight, weightedList, weightOf, lookupKV]
  · norm_num [cumWeight, weightedList, weightOf, lookupKV]
  · simpa using h

/-- C8 counterexample: a worker with `requestCount = 2`, `successCount = 2`
and a recorded `averageProcessingTime` of 0 gets code weight
`1 · (1000/1000) = 1` (the `avg || 1000` fallback), while the
specification's formula `successRate · (1000 / max(avg, 1))` gives 1000.
With a second stats-free candidate (weight 1) and the draw `r = 3/2`, the
code selects `B` whereas sampling by the specification's weights selects
`A`. -/
theorem weighted_formula_counterexample :
    weightOf (some ⟨2, 0, 0, 2, 0, none, 0⟩) = 1
    ∧ specWeightOf (some ⟨2, 0, 0, 2, 0, none, 0⟩) = 1000
    ∧ selectWeighted [("A", ⟨2, 0, 0, 2, 0, none, 0⟩)] (fun s => s)
        (["A", "B"] : List String) (3 / 2) = some "B"
    ∧ specSelectWeighted [("A", ⟨2, 0, 0, 2, 0, none, 0⟩)] (fun s => s)
        (["A", "B"] : List String) (3 / 2) = some "A" := by
  have hwl : weightedList [("A", (⟨2, 0, 0, 2, 0, none, 0⟩ : WStats))] (fun s => s)
      (["A", "B"] : List String) = [("A", 1), ("B", 1)] := by
    unfold weightedList
    simp only [List.map]
    rw [show lookupKV [("A", (⟨2, 0, 0, 2, 0, none, 0⟩ : WStats))] "A"
        = some (⟨2, 0, 0, 2, 0, none, 0⟩ : WStats) from rfl,
       show lookupKV [("A", (⟨2, 0, 0, 2, 0, none, 0⟩ : WStats))] "B" = none from rfl]
    unfold weightOf
    norm_num
  have hgo : selectWeightedGo (3 / 2 : ℚ) [("A", (1 : ℚ)), ("B", 1)] = some "B" := by
    unfold selectWeightedGo
    norm_num
    unfold selectWeightedGo
    norm_num
  refine ⟨?_, ?_, ?_, ?_⟩
  · unfold weightOf
    norm_num
  · unfold specWeightOf
    norm_num
  · unfold selectWeighted
    rw [hwl, hgo]
  · unfold specSelectWeighted
    simp only [List.map]
    rw [show lookupKV [("A", (⟨2, 0, 0, 2, 0, none, 0⟩ : WStats))] "A"
        = some (⟨2, 0, 0, 2, 0, none, 0⟩ : WStats) from rfl,
       show lookupKV [("A", (⟨2, 0, 0, 2, 0, none, 0⟩ : WStats))] "B" = none from rfl]
    have hsw : specWeightOf (some (⟨2, 0, 0, 2, 0, none, 0⟩ : WStats)) = 1000 := by
      unfold specWeightOf
      norm_num
    have hsw2 : specWeightOf (none : Option WStats) = 1 := rfl
    rw [hsw, hsw2]
    have hgo2 : selectWeightedGo (3 / 2 : ℚ) [("A", (1000 : ℚ)), ("B", 1)] = some "A" := by
      unfold selectWeightedGo
      norm_num
    rw [hgo2]

end Balancer

/-! ## Claims about result postprocessing -/

namespace Post

/-- C9 counterexample: a raw result carrying `confidence: 0` — present, a
number — is normalized to `confidence: 0.5`, because the code uses the JS
`||` default, which treats 0 as absent; the claim requires the value 0 to be
kept. -/
theorem postprocess_confidence_zero_lost :
    getField (JVal.obj [("predictions", JVal.arr [JVal.num 1]),
        ("confidence", JVal.num 0)]) "confidence" = some (JVal.num 0)
    ∧ getField (postprocessResult ⟨"1.0.0"⟩ 0
        (JVal.obj [("predictions", JVal.arr [JVal.num 1]),
          ("confidence", JVal.num 0)])) "confidence" = some (JVal.num (1 / 2))
    ∧ (JVal.num (1 / 2) = JVal.num 0 → False) := by
  refine ⟨rfl, rfl, ?_⟩
  intro h
  have h2 : (1 / 2 : ℚ) = 0 := by injection h
  norm_num at h2

/-- C9 amended: `postprocessResult` produces
`{predictions, confidence, metadata: {modelVersion, processedAt}}` where
`predictions` is the raw `predictions` field when present and truthy and the
whole raw value otherwise, and `confidence` is the raw `confidence` field
when present and *truthy* — a present falsy value, such as 0, falls back —
defaulting to 0.5 when absent or falsy. -/
theorem postprocess_fields (model : MInfo) (now : Int) (result : JVal) :
    (∀ c, getField result "confidence" = some c → truthy c = true →
        getField (postprocessResult model now result) "confidence" = some c)
    ∧ (∀ c, getField result "confidence" = some c → truthy c = false →
        getField (postprocessResult model now result) "confidence"
          = some (JVal.num (1 / 2)))
    ∧ (getField result "confidence" = none →
        getField (postprocessResult model now result) "confidence"
          = some (JVal.num (1 / 2)))
    ∧ (∀ p, getField result "predictions" = some p → truthy p = true →
        getField (postprocessResult model now result) "predictions" = some p)
    ∧ (∀ p, getField result "predictions" = some p → truthy p = false →
        getField (postprocessResult model now result) "predictions" = some result)
    ∧ (getField result "predictions" = none →
        getField (postprocessResult model now result) "predictions" = some result)
    ∧ getField (postprocessResult model now result) "metadata"
        = some (JVal.obj [("modelVersion", JVal.str model.version),
                          ("processedAt", JVal.num now)]) := by
  have hconf : getField (postprocessResult model now result) "confidence"
      = jsOr (getField result "confidence") (JVal.num (1 / 2)) := rfl
  have hpred : getField (postprocessResult model now result) "predictions"
      = jsOr (getField result "predictions") result := rfl
  refine ⟨?_, ?_, ?_, ?_, ?_, ?_, rfl⟩
  · intro c hc ht
    rw [hconf, hc]
    simp [jsOr, ht]
  · intro c hc ht
    rw [hconf, hc]
    simp [jsOr, ht]
  · intro hc
    rw [hconf, hc]
    rfl
  · intro p hp ht
    rw [hpred, hp]
    simp [jsOr, ht]
  · intro p hp ht
    rw [hpred, hp]
    simp [jsOr, ht]
  · intro hp
    rw [hpred, hp]
    rfl

/-- Witness for the amended C9: a truthy confidence of 3/4 is kept, and on
the raw value with `confidence: 0` the default 0.5 is produced. -/
theorem postprocess_fields_witness :
    (getField (JVal.obj [("confidence", JVal.num (3 / 4))]) "confidence"
        = some (JVal.num (3 / 4))
    ∧ truthy (JVal.num (3 / 4)) = true
    ∧ getField (postprocessResult ⟨"2.0.0"⟩ 7
        (JVal.obj [("confidence", JVal.num (3 / 4))])) "confidence"
        = some (JVal.num (3 / 4)))
    ∧ (getField (JVal.obj [("confidence", JVal.num 0)]) "confidence"
        = some (JVal.num 0)
    ∧ truthy (JVal.num 0) = false
    ∧ getField (postprocessResult ⟨"2.0.0"⟩ 7
        (JVal.obj [("confidence", JVal.num 0)])) "confidence"
        = some (JVal.num (1 / 2))) := by
  refine ⟨⟨rfl, ?_, ?_⟩, ⟨rfl, ?_, ?_⟩⟩
  · show decide ((3 / 4 : ℚ) ≠ 0) = true
    norm_num
  · exact (postprocess_fields ⟨"2.0.0"⟩ 7
      (JVal.obj [("confidence", JVal.num (3 / 4))])).1 (JVal.num (3 / 4)) rfl
      (by
        show decide ((3 / 4 : ℚ) ≠ 0) = true
        norm_num)
  · show decide ((0 : ℚ) ≠ 0) = false
    norm_num
  · exact (postprocess_fields ⟨"2.0.0"⟩ 7
      (JVal.obj [("confidence", JVal.num 0)])).2.1 (JVal.num 0) rfl
      (by
        show decide ((0 : ℚ) ≠ 0) = false
        norm_num)

end Post

/-! ## Witness for the rate-limiter claim -/

namespace Gateway

/-- Witness for C4 at concrete inputs: cap 2, window 100 ms, entry at the
cap since time 0; the request at time 50 is denied, interleaved events at
times 60 and 70 change nothing for this client, the request at time 80
(inside the window) is denied, and the request at time 150 (outside) is
allowed. -/
theorem rateLimit_monotone_witness :
    (lookupKV [("c", (⟨2, 0⟩ : RLEntry))] "c" = some ⟨2, 0⟩
    ∧ (checkRateLimit ⟨true, some 100, some 2⟩ "c" 50 [("c", ⟨2, 0⟩)]).1 = false
    ∧ (0 : Int) ≤ windowMsOf ⟨true, some 100, some 2⟩
    ∧ (∀ ev ∈ [GwEvent.request "d" 60, GwEvent.cleanup 70],
        eventTime ev ≤ (0 : Int) + windowMsOf ⟨true, some 100, some 2⟩))
    ∧ (checkRateLimit ⟨true, some 100, some 2⟩ "c" 80
        (gwExec ⟨true, some 100, some 2⟩ [GwEvent.request "d" 60, GwEvent.cleanup 70]
          (checkRateLimit ⟨true, some 100, some 2⟩ "c" 50 [("c", ⟨2, 0⟩)]).2)).1 = false
    ∧ (checkRateLimit ⟨true, some 100, some 2⟩ "c" 150
        (gwExec ⟨true, some 100, some 2⟩ [GwEvent.request "d" 60, GwEvent.cleanup 70]
          (checkRateLimit ⟨true, some 100, some 2⟩ "c" 50 [("c", ⟨2, 0⟩)]).2)).1 = true := by
  refine ⟨⟨rfl, rfl, by decide, by decide⟩, ?_, ?_⟩
  · exact (rateLimit_monotone_in_window ⟨true, some 100, some 2⟩ [("c", ⟨2, 0⟩)] "c" 50
      ⟨2, 0⟩ rfl rfl (by decide) [GwEvent.request "d" 60, GwEvent.cleanup 70]
      (by decide) 80).1 (by decide)
  · exact ((rateLimit_monotone_in_window ⟨true, some 100, some 2⟩ [("c", ⟨2, 0⟩)] "c" 50
      ⟨2, 0⟩ rfl rfl (by decide) [GwEvent.request "d" 60, GwEvent.cleanup 70]
      (by decide) 150).2 (by decide)).1

end Gateway

end S2P
